import Mathlib

/-!
Verification of the RusticDB storage and SQL executor layers.

This development shallowly embeds the Rust sources:
  * `src/storage/mvcc.rs`   — MVCC transactions (visibility, writes, get,
    commit, rollback),
  * `src/storage/engine.rs` — the byte-level `Engine::scan_prefix` default
    implementation,
  * `src/sql/types/mod.rs`  — `Value` and its `Hash` discriminator,
  * `src/sql/executor/agg.rs`  — COUNT / SUM / AVG calculators,
  * `src/sql/executor/join.rs` — the nested-loop join executor,
and, modelled from the spec because `src/storage/keycode.rs` is not present
in the source tree, the order-preserving key codec (spec section 4.2).

Modelling conventions:
  * Machine integers (`u64`, `i64`) are `Nat` / `Int`; where the Rust type
    bounds matter a hypothesis such as `w ≤ u64Max` appears.
  * Rust `f64` payloads are modelled as `Rat`; the aggregate claims are
    about which cells enter the fold and how results compose, and those
    facts are independent of the rounding of each addition.
  * The byte engine under the MVCC layer is modelled as an association list
    keyed by the logical `MvccKey`; range and prefix scans act on logical
    keys.  This is justified by the key codec contract (spec 4.2): the
    encoding is order-preserving per variant and keeps all versions of one
    raw key contiguous, so an encoded-byte range scan visits exactly the
    logical keys our model visits, in the same order.
  * Fallible Rust functions returning `Result` become `Except Err`.
  * A Rust panic (index out of bounds, byte overflow) is modelled by the
    dedicated error value `Err.outOfBounds`, distinguished from the
    source's own `Error` variants.
-/

set_option autoImplicit false

namespace RusticDB

/-- Raw user keys and values: `Vec<u8>` as a list of naturals. -/
abbrev Bytes := List Nat

/-- `u64::MAX`, the upper bound of the conflict scan in `write_inner`. -/
def u64Max : Nat := 18446744073709551615

/-- The error type of `error.rs` (`Parse` is irrelevant here), extended by
`outOfBounds`, which models a Rust panic — a behaviour the source's own
`Error` enum cannot represent. -/
inductive Err where
  | internal (msg : String)
  | writeConflict
  | outOfBounds
  deriving DecidableEq, Repr

/-- `TransactionState` from `mvcc.rs`: the transaction's own version and the
snapshot of versions active at begin.  The Rust `HashSet<Version>` is a list
used only through membership and minimum. -/
structure TransactionState where
  version : Nat
  active_versions : List Nat
  deriving Repr

/-- `TransactionState::is_visible` (mvcc.rs lines 48-53): a version is
invisible when it is in the active set, otherwise visible iff `≤ version`. -/
def TransactionState.is_visible (st : TransactionState) (v : Nat) : Bool :=
  if st.active_versions.contains v then false else v ≤ st.version

/-- The `MvccKey` enum from `mvcc.rs` (storage key namespace). -/
inductive MvccKey where
  | nextVersion
  | txnActive (v : Nat)
  | txnWrite (v : Nat) (raw : Bytes)
  | version (raw : Bytes) (v : Nat)
  deriving DecidableEq, Repr

/-- Values stored in the engine, at the granularity the MVCC layer uses
them: a serialized counter (`NextVersion`), an empty marker
(`TxnActive` / `TxnWrite`), or a serialized `Option<Vec<u8>>` payload
(`Version`).  Keeping the bincode images abstract as a sum type models the
serialize/deserialize pair exactly up to the external bincode round-trip. -/
inductive EVal where
  | num (n : Nat)
  | unit
  | vopt (o : Option Bytes)
  deriving DecidableEq, Repr

/-- `bincode::deserialize::<Option<Vec<u8>>>` on a stored value: fails
unless the bytes are the image of an `Option<Vec<u8>>`. -/
def deserializeOpt : EVal → Except Err (Option Bytes)
  | EVal.vopt o => Except.ok o
  | _ => Except.error (Err.internal "deserialize")

/-- The engine contents visible to the MVCC layer: an association list from
logical keys to stored values (the in-memory `BTreeMap` of `memory.rs`,
with physical byte order abstracted away as explained in the header). -/
abbrev Db := List (MvccKey × EVal)

/-- The engine holds at most one entry per key (a `BTreeMap` invariant). -/
def wfKeys (db : Db) : Prop := (db.map Prod.fst).Nodup

/-- `BTreeMap::insert`: replace the entry if the key is present, otherwise
add it. -/
def dbSet (db : Db) (k : MvccKey) (val : EVal) : Db :=
  if db.any (fun e => e.1 = k) then
    db.map (fun e => if e.1 = k then (k, val) else e)
  else db ++ [(k, val)]

/-- `BTreeMap::remove`. -/
def dbDelete (db : Db) (k : MvccKey) : Db :=
  db.filter (fun e => e.1 ≠ k)

/-- Some versioned entry for user key `raw` at version `w` is stored. -/
def VersionInDb (db : Db) (raw : Bytes) (w : Nat) : Prop :=
  ∃ val, (MvccKey.version raw w, val) ∈ db

/-- A write record of transaction `v` for user key `raw` is stored. -/
def TxnWriteInDb (db : Db) (v : Nat) (raw : Bytes) : Prop :=
  ∃ val, (MvccKey.txnWrite v raw, val) ∈ db

/-- Insertion (by version number) into a version-sorted scan result. -/
def insertV (x : Nat × EVal) : List (Nat × EVal) → List (Nat × EVal)
  | [] => [x]
  | y :: ys => if x.1 ≤ y.1 then x :: y :: ys else y :: insertV x ys

/-- Sort scan entries by version number, ascending. -/
def sortV : List (Nat × EVal) → List (Nat × EVal)
  | [] => []
  | x :: xs => insertV x (sortV xs)

/-- Entries sorted ascending by version. -/
def VSorted (l : List (Nat × EVal)) : Prop :=
  l.Pairwise (fun a b => a.1 ≤ b.1)

/-- Selects the entries a range scan `Version(raw, lo)..=Version(raw, hi)`
visits: the codec keeps all versions of one raw key contiguous and ordered
by version, so exactly the stored `Version(raw, w)` with `lo ≤ w ≤ hi`
fall inside the encoded byte range. -/
def versionEntry (raw : Bytes) (lo hi : Nat) : MvccKey × EVal → Option (Nat × EVal)
  | (MvccKey.version r w, val) =>
      if r = raw ∧ lo ≤ w ∧ w ≤ hi then some (w, val) else none
  | _ => none

/-- The engine range scan `Version(raw, lo)..=Version(raw, hi)`, in
ascending key order. -/
def scanVersions (db : Db) (raw : Bytes) (lo hi : Nat) : List (Nat × EVal) :=
  sortV (db.filterMap (versionEntry raw lo hi))

/-- Binary minimum on naturals, written out so proofs can split on it. -/
def min2 (a b : Nat) : Nat := if a ≤ b then a else b

/-- `Iterator::min` over the active set (`active_versions.iter().min()`). -/
def listMin : List Nat → Option Nat
  | [] => none
  | a :: rest =>
      match listMin rest with
      | none => some a
      | some m => some (min2 a m)

/-- The conflict-scan lower bound computed by `write_inner`
(mvcc.rs lines 244-252): `active_versions.iter().min()` with fallback
`version + 1`. -/
def writeLo (st : TransactionState) : Nat :=
  match listMin st.active_versions with
  | some m => m
  | none => st.version + 1

/-- The lower bound as the spec words it: `min(active_versions ∪ {v+1})`. -/
def claimLo (st : TransactionState) : Nat :=
  st.active_versions.foldr min2 (st.version + 1)

/-- The store state after a successful `write_inner`: the write record,
then the versioned value (mvcc.rs lines 273-281). -/
def writeSuccess (db : Db) (st : TransactionState) (key : Bytes)
    (value : Option Bytes) : Db :=
  dbSet (dbSet db (MvccKey.txnWrite st.version key) EVal.unit)
    (MvccKey.version key st.version) (EVal.vopt value)

/-- `MvccTransaction::write_inner` (mvcc.rs lines 241-284): scan
`Version(key, lo)..=Version(key, u64::MAX)`, take the last entry; if it is
not visible fail with `WriteConflict`; otherwise record `TxnWrite` and the
versioned value. -/
def write_inner (db : Db) (st : TransactionState) (key : Bytes)
    (value : Option Bytes) : Except Err Db :=
  match (scanVersions db key (writeLo st) u64Max).getLast? with
  | some (w, _) =>
      if ¬ st.is_visible w then Except.error Err.writeConflict
      else Except.ok (writeSuccess db st key value)
  | none => Except.ok (writeSuccess db st key value)

/-- `MvccTransaction::set`. -/
def mset (db : Db) (st : TransactionState) (key value : Bytes) : Except Err Db :=
  write_inner db st key (some value)

/-- `MvccTransaction::delete`. -/
def mdelete (db : Db) (st : TransactionState) (key : Bytes) : Except Err Db :=
  write_inner db st key none

/-- The loop of `MvccTransaction::get` over the reversed range scan: skip
invisible versions, deserialize the first visible one. -/
def getLoop (st : TransactionState) : List (Nat × EVal) → Except Err (Option Bytes)
  | [] => Except.ok none
  | (w, val) :: rest =>
      if st.is_visible w then deserializeOpt val else getLoop st rest

/-- `MvccTransaction::get` (mvcc.rs lines 183-206): reverse scan of
`Version(key, 0)..=Version(key, version)`, returning the first visible
entry's deserialized payload. -/
def mget (db : Db) (st : TransactionState) (key : Bytes) : Except Err (Option Bytes) :=
  getLoop st ((scanVersions db key 0 st.version).reverse)

/-- The keys collected by `commit`'s `scan_prefix(TxnWrite(version))`:
every stored `TxnWrite(v, raw)` (the codec makes the version a prefix of
the raw key in this family). -/
def txnWriteKeyList (db : Db) (v : Nat) : List MvccKey :=
  db.filterMap (fun e =>
    match e.1 with
    | MvccKey.txnWrite w raw =>
        if w = v then some (MvccKey.txnWrite w raw) else none
    | _ => none)

/-- `MvccTransaction::commit` (mvcc.rs lines 128-143): delete every
`TxnWrite(v, *)` entry, then delete `TxnActive(v)`. -/
def commit (db : Db) (v : Nat) : Db :=
  dbDelete (List.foldl dbDelete db (txnWriteKeyList db v)) (MvccKey.txnActive v)

/-- The keys collected by `rollback` (mvcc.rs lines 150-164): for each
stored `TxnWrite(v, raw)`, first `Version(raw, v)`, then the write record
itself. -/
def rollbackKeyList (db : Db) (v : Nat) : List MvccKey :=
  match db with
  | [] => []
  | e :: rest =>
      (match e.1 with
        | MvccKey.txnWrite w raw =>
            if w = v then [MvccKey.version raw v, MvccKey.txnWrite w raw] else []
        | _ => []) ++ rollbackKeyList rest v

/-- `MvccTransaction::rollback` (mvcc.rs lines 146-172): delete each
written version and its write record, then delete `TxnActive(v)`. -/
def rollback (db : Db) (v : Nat) : Db :=
  dbDelete (List.foldl dbDelete db (rollbackKeyList db v)) (MvccKey.txnActive v)

/-- The write-conflict condition as claimed: some stored version of the
key at or above `min(active ∪ {v+1})` exists whose maximum is not visible
to the transaction. -/
def ClaimConflict (db : Db) (st : TransactionState) (raw : Bytes) : Prop :=
  ∃ w, VersionInDb db raw w ∧ claimLo st ≤ w ∧
    (∀ w', VersionInDb db raw w' → claimLo st ≤ w' → w' ≤ w) ∧
    ¬ (w ≤ st.version ∧ w ∉ st.active_versions)

/-- `Value` from `sql/types/mod.rs`; the `f64` payload is modelled as
`Rat` (see the header note on floats). -/
inductive Value where
  | null
  | boolean (b : Bool)
  | integer (i : Int)
  | float (f : Rat)
  | string (s : String)
  deriving DecidableEq, Repr

/-- `type Row = Vec<Value>`. -/
abbrev Row := List Value

/-- `cols.iter().position(|c| *c == *col_name)`. -/
def colPos (cols : List String) (name : String) : Option Nat :=
  cols.findIdx? (fun c => c = name)

/-- Rust `row[pos]`.  Indexing out of bounds panics in Rust; theorems
assume `pos < row.length`, so the default is never taken. -/
def cellAt (row : Row) (pos : Nat) : Value := row.getD pos Value.null

/-- The counting loop of `Count::calc` (agg.rs lines 177-182): each
non-null cell adds one. -/
def countLoop (pos : Nat) : List Row → Int
  | [] => 0
  | row :: rest => (if cellAt row pos ≠ Value.null then 1 else 0) + countLoop pos rest

/-- `Count::calc` (agg.rs lines 171-185). -/
def countCalc (col_name : String) (cols : List String) (rows : List Row) :
    Except Err Value :=
  match colPos cols col_name with
  | none => Except.error (Err.internal "column not in table")
  | some pos => Except.ok (Value.integer (countLoop pos rows))

/-- The accumulation loop of `Sum::calc` (agg.rs lines 265-283): `None`
until the first numeric cell, then a running float sum; a non-null
non-numeric cell is an error. -/
def sumLoop (pos : Nat) (acc : Option Rat) : List Row → Except Err (Option Rat)
  | [] => Except.ok acc
  | row :: rest =>
      match cellAt row pos with
      | Value.null => sumLoop pos acc rest
      | Value.integer v => sumLoop pos (some (acc.getD 0 + (v : Rat))) rest
      | Value.float v => sumLoop pos (some (acc.getD 0 + v)) rest
      | _ => Except.error (Err.internal "can not calc column")

/-- `Sum::calc` (agg.rs lines 259-289). -/
def sumCalc (col_name : String) (cols : List String) (rows : List Row) :
    Except Err Value :=
  match colPos cols col_name with
  | none => Except.error (Err.internal "column not in table")
  | some pos =>
      (sumLoop pos none rows).map (fun s =>
        match s with
        | some v => Value.float v
        | none => Value.null)

/-- `Avg::calc` (agg.rs lines 302-310): `SUM / COUNT`, null unless both
have their numeric shapes. -/
def avgCalc (col_name : String) (cols : List String) (rows : List Row) :
    Except Err Value := do
  let s ← sumCalc col_name cols rows
  let c ← countCalc col_name cols rows
  match s, c with
  | Value.float sv, Value.integer cv => pure (Value.float (sv / (cv : Rat)))
  | _, _ => pure Value.null

/-- A cell `Sum::calc` accepts: null, integer or float. -/
def numericOrNull : Value → Bool
  | Value.null => true
  | Value.integer _ => true
  | Value.float _ => true
  | _ => false

/-- The numeric content of a cell, as the float domain sees it. -/
def cellRat : Value → Rat
  | Value.integer i => (i : Rat)
  | Value.float f => f
  | _ => 0

/-- The non-null cells of the aggregated column, in row order, as floats. -/
def nonNullCells (pos : Nat) (rows : List Row) : List Rat :=
  (rows.filter (fun row => cellAt row pos ≠ Value.null)).map
    (fun row => cellRat (cellAt row pos))

/-- What `sumLoop` started at `acc` amounts to over a numeric-or-null
column whose non-null cells are `cells`. -/
def sumResult (acc : Option Rat) (cells : List Rat) : Option Rat :=
  match acc, cells with
  | none, [] => none
  | _, _ => some (acc.getD 0 + cells.sum)

/-- The discriminator byte written by `impl Hash for Value`
(sql/types/mod.rs lines 85-107) before hashing the payload: Null 0,
Boolean 1, Integer 2, Float 3 — and String also 2 in the source. -/
def hashDiscriminator : Value → Nat
  | Value.null => 0
  | Value.boolean _ => 1
  | Value.integer _ => 2
  | Value.float _ => 3
  | Value.string _ => 2

/-- The variant of a `Value`, for stating that two values come from
different variants. -/
def variantIdx : Value → Nat
  | Value.null => 0
  | Value.boolean _ => 1
  | Value.integer _ => 2
  | Value.float _ => 3
  | Value.string _ => 4

/-- Lexicographic strict order on byte strings: the `Ord` on `Vec<u8>`
under which `BTreeMap` keeps its keys. -/
def bytesLt : Bytes → Bytes → Bool
  | [], [] => false
  | [], _ :: _ => true
  | _ :: _, [] => false
  | a :: as1, b :: bs1 =>
      if a < b then true else if a = b then bytesLt as1 bs1 else false

/-- `MemoryEngine` contents: `BTreeMap<Vec<u8>, Vec<u8>>` as an
association list. -/
abbrev MemDb := List (Bytes × Bytes)

/-- Insertion into a key-sorted scan result. -/
def insertB (x : Bytes × Bytes) : List (Bytes × Bytes) → List (Bytes × Bytes)
  | [] => [x]
  | y :: ys => if bytesLt y.1 x.1 then y :: insertB x ys else x :: y :: ys

/-- Sort scan entries by key, ascending. -/
def sortB : List (Bytes × Bytes) → List (Bytes × Bytes)
  | [] => []
  | x :: xs => insertB x (sortB xs)

/-- `BTreeMap::range` over `Included lo .. Excluded hi`: panics (modelled
as `Err.outOfBounds`) when the start bound exceeds the end bound, else
yields the entries in `[lo, hi)` in ascending key order. -/
def memScan (db : MemDb) (lo hi : Bytes) : Except Err (List (Bytes × Bytes)) :=
  if bytesLt hi lo then Except.error Err.outOfBounds
  else Except.ok (sortB (db.filter (fun e => !(bytesLt e.1 lo) && bytesLt e.1 hi)))

/-- The `*last += 1` of `Engine::scan_prefix` (engine.rs lines 24-27):
increment the last byte.  `u8` arithmetic wraps in release builds (and
panics outright in debug builds on 0xFF); the wrap is modelled, and the
resulting inverted range is then hit inside `BTreeMap::range`. -/
def bumpLast : Bytes → Bytes
  | [] => []
  | [a] => [(a + 1) % 256]
  | a :: rest => a :: bumpLast rest

/-- `Engine::scan_prefix` default implementation (engine.rs lines 22-30):
scan `[prefix, prefix-with-last-byte-incremented)`. -/
def prefixScanE (db : MemDb) (p : Bytes) : Except Err (List (Bytes × Bytes)) :=
  memScan db p (bumpLast p)

/-- The expression forms `evaluate_expr` in `join.rs` handles: a column
reference, an equality, and everything else (constants, function calls),
which that evaluator rejects. -/
inductive JoinExpr where
  | field (name : String)
  | equalOp (l r : JoinExpr)
  | consts (c : Value)

/-- `evaluate_expr` (join.rs lines 116-163): a field resolves against the
left columns; equality evaluates the left side, then the right side with
the column/row pairs swapped, and compares with int-to-float promotion;
nulls propagate; anything else errors. -/
def evaluate_expr : JoinExpr → List String → Row → List String → Row →
    Except Err Value
  | JoinExpr.field name, lcols, lrow, _, _ =>
      match colPos lcols name with
      | none => Except.error (Err.internal "column is not in table")
      | some pos => Except.ok (cellAt lrow pos)
  | JoinExpr.equalOp le re, lcols, lrow, rcols, rrow => do
      let lv ← evaluate_expr le lcols lrow rcols rrow
      let rv ← evaluate_expr re rcols rrow lcols lrow
      match lv, rv with
      | Value.boolean l, Value.boolean r => pure (Value.boolean (l = r))
      | Value.integer l, Value.integer r => pure (Value.boolean (l = r))
      | Value.integer l, Value.float r => pure (Value.boolean ((l : Rat) = r))
      | Value.float l, Value.integer r => pure (Value.boolean (l = (r : Rat)))
      | Value.float l, Value.float r => pure (Value.boolean (l = r))
      | Value.string l, Value.string r => pure (Value.boolean (l = r))
      | Value.null, _ => pure Value.null
      | _, Value.null => pure Value.null
      | _, _ => Except.error (Err.internal "can not compare")
  | JoinExpr.consts _, _, _, _, _ =>
      Except.error (Err.internal "unexpected expression")

/-- The inner loop of `NestedLoopJoin::execute` (join.rs lines 55-79) for
one left row: accumulate matches over all right rows.  Note the
no-predicate branch emits but never sets `matched`, as in the source. -/
def joinRight (pred : Option JoinExpr) (lcols rcols : List String)
    (lrow : Row) : List Row → Bool → List Row → Except Err (Bool × List Row)
  | [], matched, acc => Except.ok (matched, acc)
  | rrow :: rest, matched, acc =>
      match pred with
      | some expr => do
          let v ← evaluate_expr expr lcols lrow rcols rrow
          match v with
          | Value.null => joinRight pred lcols rcols lrow rest matched acc
          | Value.boolean false => joinRight pred lcols rcols lrow rest matched acc
          | Value.boolean true =>
              joinRight pred lcols rcols lrow rest true (acc ++ [lrow ++ rrow])
          | _ => Except.error (Err.internal "Unexpected expression")
      | none => joinRight pred lcols rcols lrow rest matched (acc ++ [lrow ++ rrow])

/-- Per-left-row postlude (join.rs lines 82-88): when `outer` and nothing
matched, pad with `rrows[0].len()` nulls — indexing the first right row,
which panics when the right result has no rows. -/
def joinLeftRow (pred : Option JoinExpr) (outer : Bool)
    (lcols rcols : List String) (rrows : List Row) (lrow : Row) :
    Except Err (List Row) := do
  let (matched, acc) ← joinRight pred lcols rcols lrow rrows false []
  if outer ∧ ¬ matched then
    match rrows.head? with
    | none => Except.error Err.outOfBounds
    | some r0 => pure (acc ++ [lrow ++ List.replicate r0.length Value.null])
  else pure acc

/-- `NestedLoopJoin::execute` (join.rs lines 33-110): columns are
left ++ right; rows accumulate per left row in order. -/
def joinExecute (lcols : List String) (lrows : List Row)
    (rcols : List String) (rrows : List Row) (pred : Option JoinExpr)
    (outer : Bool) : Except Err (List String × List Row) := do
  let rowsNested ← lrows.mapM (joinLeftRow pred outer lcols rcols rrows)
  pure (lcols ++ rcols, rowsNested.flatten)

/-- Modelled from the spec: the escape/terminator byte-string encoding of
the key codec — `src/storage/keycode.rs` is absent from the source tree
(spec 4.2: byte strings "use a self-delimiting encoding (escape a
terminator byte inside the payload and append a sentinel)").  A zero
payload byte becomes `00 FF`; `00 00` terminates. -/
def encBytes : Bytes → List Nat
  | [] => [0, 0]
  | x :: rest => (if x = 0 then [0, 255] else [x]) ++ encBytes rest

/-- Modelled from the spec: decoder of `encBytes`. -/
def decBytes : List Nat → Except Err (Bytes × List Nat)
  | [] => Except.error (Err.internal "keycode")
  | 0 :: rest =>
      match rest with
      | [] => Except.error (Err.internal "keycode")
      | 0 :: rest' => Except.ok ([], rest')
      | 255 :: rest' => (decBytes rest').map (fun p => (0 :: p.1, p.2))
      | _ => Except.error (Err.internal "keycode")
  | x :: rest => (decBytes rest).map (fun p => (x :: p.1, p.2))

/-- Modelled from the spec: big-endian fixed-width `u64`
(spec 4.2: "Fixed-width integers use big-endian"). -/
def encU64 (n : Nat) : List Nat :=
  [n / 72057594037927936 % 256, n / 281474976710656 % 256,
   n / 1099511627776 % 256, n / 4294967296 % 256, n / 16777216 % 256,
   n / 65536 % 256, n / 256 % 256, n % 256]

/-- Modelled from the spec: decoder of `encU64`. -/
def decU64 : List Nat → Except Err (Nat × List Nat)
  | b0 :: b1 :: b2 :: b3 :: b4 :: b5 :: b6 :: b7 :: rest =>
      Except.ok
        (((((((b0 * 256 + b1) * 256 + b2) * 256 + b3) * 256 + b4) * 256 + b5) *
            256 + b6) * 256 + b7, rest)
  | _ => Except.error (Err.internal "keycode")

/-- Modelled from the spec: `serialize_key` — the variant index as a tag
byte, then the order-preserving field encodings, in declaration order
(spec 4.2). -/
def serialize_key : MvccKey → List Nat
  | MvccKey.nextVersion => [0]
  | MvccKey.txnActive v => 1 :: encU64 v
  | MvccKey.txnWrite v raw => 2 :: (encU64 v ++ encBytes raw)
  | MvccKey.version raw v => 3 :: (encBytes raw ++ encU64 v)

/-- Modelled from the spec: `deserialize_key`, failing on bytes that are
not the image of a key (spec 4.2 errors: "Decode fails ... when bytes do
not match the declared schema"). -/
def deserialize_key (l : List Nat) : Except Err MvccKey :=
  match l with
  | [0] => Except.ok MvccKey.nextVersion
  | 1 :: rest => do
      let (v, r) ← decU64 rest
      if r = [] then pure (MvccKey.txnActive v)
      else Except.error (Err.internal "keycode")
  | 2 :: rest => do
      let (v, r) ← decU64 rest
      let (raw, r') ← decBytes r
      if r' = [] then pure (MvccKey.txnWrite v raw)
      else Except.error (Err.internal "keycode")
  | 3 :: rest => do
      let (raw, r) ← decBytes rest
      let (v, r') ← decU64 r
      if r' = [] then pure (MvccKey.version raw v)
      else Except.error (Err.internal "keycode")
  | _ => Except.error (Err.internal "keycode")

/-- `MvccKey::encode` (mvcc.rs lines 71-73). -/
def MvccKey.encode (k : MvccKey) : List Nat := serialize_key k

/-- `MvccKey::decode` (mvcc.rs lines 76-78). -/
def MvccKey.decode (data : List Nat) : Except Err MvccKey :=
  deserialize_key data

/-- The Rust domain of `MvccKey`: `u64` versions and `u8` payload bytes. -/
def wfKey : MvccKey → Prop
  | MvccKey.nextVersion => True
  | MvccKey.txnActive v => v ≤ u64Max
  | MvccKey.txnWrite v raw => v ≤ u64Max ∧ ∀ x ∈ raw, x < 256
  | MvccKey.version raw v => v ≤ u64Max ∧ ∀ x ∈ raw, x < 256

/-- C1.  For every transaction state (version `v`, active snapshot `A`) and
write version `w`: `w` is visible iff `w ≤ v` and `w ∉ A`; in particular,
when `v ∉ A` (as guaranteed at begin, which snapshots the active set before
inserting `TxnActive(v)`), the transaction's own version is visible to
itself. -/
theorem visibility_iff (st : TransactionState) (w : Nat) :
    (st.is_visible w = true ↔ (w ≤ st.version ∧ w ∉ st.active_versions)) ∧
    (st.version ∉ st.active_versions → st.is_visible st.version = true) := by
  constructor
  · unfold TransactionState.is_visible
    by_cases h : st.active_versions.contains w <;> simp [h] <;> tauto
  · intro hnot
    unfold TransactionState.is_visible
    have hc : st.active_versions.contains st.version = false := by
      simpa using hnot
    simp [hc]
    exact hnot

/-- Concrete instantiation of `visibility_iff` discharging its inner
hypothesis at `st = ⟨3, [1]⟩`. -/
theorem visibility_iff_witness :
    (3 : Nat) ∉ ([1] : List Nat) ∧
    ((TransactionState.mk 3 [1]).is_visible 2 = true ↔
      ((2 : Nat) ≤ 3 ∧ (2 : Nat) ∉ ([1] : List Nat))) ∧
    (TransactionState.mk 3 [1]).is_visible 3 = true := by
  refine ⟨by decide, (visibility_iff ⟨3, [1]⟩ 2).1, (visibility_iff ⟨3, [1]⟩ 3).2 (by decide)⟩

theorem mem_dbSet {db : Db} {k k' : MvccKey} {val val' : EVal} :
    (k', val') ∈ dbSet db k val ↔
      (k' = k ∧ val' = val) ∨ (k' ≠ k ∧ (k', val') ∈ db) := by
  unfold dbSet
  by_cases hany : db.any (fun e => e.1 = k)
  · simp only [hany, if_true]
    constructor
    · intro hmem
      obtain ⟨e, he, heq⟩ := List.mem_map.mp hmem
      by_cases hek : e.1 = k
      · rw [if_pos hek] at heq
        exact Or.inl ⟨(Prod.mk.injEq _ _ _ _ ▸ heq.symm).1, (Prod.mk.injEq _ _ _ _ ▸ heq.symm).2⟩
      · rw [if_neg hek] at heq
        subst heq
        exact Or.inr ⟨hek, he⟩
    · rintro (⟨rfl, rfl⟩ | ⟨hne, hmem⟩)
      · obtain ⟨e, he, hek⟩ := List.any_eq_true.mp hany
        refine List.mem_map.mpr ⟨e, he, ?_⟩
        rw [if_pos (of_decide_eq_true hek)]
      · refine List.mem_map.mpr ⟨(k', val'), hmem, ?_⟩
        rw [if_neg hne]
  · rw [if_neg hany]
    rw [List.mem_append, List.mem_singleton]
    constructor
    · rintro (hmem | heq)
      · have hne : k' ≠ k := by
          intro h
          subst h
          exact (List.any_eq_true.not.mp hany) ⟨(k', val'), hmem, by simp⟩
        exact Or.inr ⟨hne, hmem⟩
      · injection heq with h1 h2
        exact Or.inl ⟨h1, h2⟩
    · rintro (⟨rfl, rfl⟩ | ⟨_, hmem⟩)
      · exact Or.inr rfl
      · exact Or.inl hmem

theorem wfKeys_dbSet {db : Db} {k : MvccKey} {val : EVal} (h : wfKeys db) :
    wfKeys (dbSet db k val) := by
  unfold wfKeys dbSet at *
  by_cases hany : db.any (fun e => e.1 = k)
  · rw [if_pos hany]
    have hmap : (db.map (fun e => if e.1 = k then (k, val) else e)).map Prod.fst
        = db.map Prod.fst := by
      rw [List.map_map]
      refine List.map_congr_left ?_
      intro e _
      by_cases hek : e.1 = k
      · simp [Function.comp, hek]
      · simp [Function.comp, hek]
    rw [hmap]
    exact h
  · rw [if_neg hany]
    rw [List.map_append]
    refine List.Nodup.append h (by simp) ?_
    intro a ha
    simp only [List.map_cons, List.map_nil, List.mem_singleton]
    intro hak
    subst hak
    obtain ⟨⟨k0, v0⟩, hmem, hfst⟩ := List.mem_map.mp ha
    exact (List.any_eq_true.not.mp hany) ⟨(k0, v0), hmem, by simpa using hfst⟩

theorem wfKeys_val_unique {db : Db} (h : wfKeys db) {k : MvccKey} {a b : EVal}
    (ha : (k, a) ∈ db) (hb : (k, b) ∈ db) : a = b := by
  induction db with
  | nil => cases ha
  | cons e rest ih =>
      have hnd := h
      unfold wfKeys at hnd
      rw [List.map_cons, List.nodup_cons] at hnd
      rcases List.mem_cons.mp ha with ha0 | ha1 <;>
        rcases List.mem_cons.mp hb with hb0 | hb1
      · rw [← ha0] at hb0
        injection hb0 with _ h2
        exact h2.symm
      · exfalso
        apply hnd.1
        rw [← ha0]
        exact List.mem_map.mpr ⟨(k, b), hb1, rfl⟩
      · exfalso
        apply hnd.1
        rw [← hb0]
        exact List.mem_map.mpr ⟨(k, a), ha1, rfl⟩
      · exact ih hnd.2 ha1 hb1

theorem mem_dbDelete {db : Db} {k : MvccKey} {x : MvccKey × EVal} :
    x ∈ dbDelete db k ↔ x ∈ db ∧ x.1 ≠ k := by
  unfold dbDelete
  rw [List.mem_filter]
  simp

theorem mem_foldl_dbDelete {ks : List MvccKey} {db : Db} {x : MvccKey × EVal} :
    x ∈ List.foldl dbDelete db ks ↔ x ∈ db ∧ x.1 ∉ ks := by
  induction ks generalizing db with
  | nil => simp
  | cons k rest ih =>
      rw [List.foldl_cons, ih, mem_dbDelete]
      simp only [List.mem_cons]
      tauto

theorem mem_insertV {x y : Nat × EVal} {l : List (Nat × EVal)} :
    y ∈ insertV x l ↔ y = x ∨ y ∈ l := by
  induction l with
  | nil => simp [insertV]
  | cons z zs ih =>
      unfold insertV
      by_cases h : x.1 ≤ z.1
      · simp [h]
      · simp only [h, if_false, List.mem_cons, ih]
        tauto

theorem mem_sortV {y : Nat × EVal} {l : List (Nat × EVal)} :
    y ∈ sortV l ↔ y ∈ l := by
  induction l with
  | nil => simp [sortV]
  | cons z zs ih =>
      unfold sortV
      rw [mem_insertV, ih, List.mem_cons]

theorem vsorted_insertV {x : Nat × EVal} {l : List (Nat × EVal)}
    (h : VSorted l) : VSorted (insertV x l) := by
  induction l with
  | nil => simp [insertV, VSorted]
  | cons y ys ih =>
      unfold VSorted at *
      rw [List.pairwise_cons] at h
      unfold insertV
      by_cases hx : x.1 ≤ y.1
      · rw [if_pos hx, List.pairwise_cons]
        refine ⟨?_, List.pairwise_cons.mpr h⟩
        intro z hz
        rcases List.mem_cons.mp hz with rfl | hz'
        · exact hx
        · exact le_trans hx (h.1 z hz')
      · rw [if_neg hx, List.pairwise_cons]
        refine ⟨?_, ih h.2⟩
        intro z hz
        rcases mem_insertV.mp hz with rfl | hz'
        · exact le_of_not_le hx
        · exact h.1 z hz'

theorem vsorted_sortV (l : List (Nat × EVal)) : VSorted (sortV l) := by
  induction l with
  | nil => simp [sortV, VSorted]
  | cons x xs ih => exact vsorted_insertV ih

theorem getLast?_mem' {α : Type} : ∀ {l : List α} {a : α}, l.getLast? = some a → a ∈ l
  | [], _, h => by cases h
  | [x], a, h => by
      simp only [List.getLast?_singleton, Option.some.injEq] at h
      simp [h]
  | x :: y :: t, a, h => by
      rw [List.getLast?_cons_cons] at h
      exact List.mem_cons.mpr (Or.inr (getLast?_mem' h))

theorem vsorted_le_getLast : ∀ {l : List (Nat × EVal)} {m : Nat × EVal},
    VSorted l → l.getLast? = some m → ∀ x ∈ l, x.1 ≤ m.1
  | [], _, _, h, _, hx => by cases h
  | [y], m, hs, h, x, hx => by
      simp only [List.getLast?_singleton, Option.some.injEq] at h
      rcases List.mem_singleton.mp hx with rfl
      rw [h]
  | y :: z :: t, m, hs, h, x, hx => by
      rw [List.getLast?_cons_cons] at h
      unfold VSorted at hs
      rw [List.pairwise_cons] at hs
      rcases List.mem_cons.mp hx with rfl | hx'
      · exact hs.1 m (getLast?_mem' h)
      · exact vsorted_le_getLast hs.2 h x hx'

theorem getLast?_eq_none' {α : Type} : ∀ {l : List α}, l.getLast? = none ↔ l = []
  | [] => by simp
  | [x] => by simp
  | x :: y :: t => by
      rw [List.getLast?_cons_cons, getLast?_eq_none']
      simp

theorem mem_scanVersions {db : Db} {raw : Bytes} {lo hi w : Nat} {val : EVal} :
    (w, val) ∈ scanVersions db raw lo hi ↔
      ((MvccKey.version raw w, val) ∈ db ∧ lo ≤ w ∧ w ≤ hi) := by
  unfold scanVersions
  rw [mem_sortV, List.mem_filterMap]
  constructor
  · rintro ⟨⟨ke, ve⟩, he, hf⟩
    cases ke with
    | version r w' =>
        simp only [versionEntry] at hf
        split_ifs at hf with hc
        · injection hf with hf
          obtain ⟨h1, h2⟩ := Prod.mk.injEq _ _ _ _ ▸ hf
          subst h1
          subst h2
          exact ⟨hc.1 ▸ he, hc.2⟩
    | nextVersion => simp [versionEntry] at hf
    | txnActive v => simp [versionEntry] at hf
    | txnWrite v raw' => simp [versionEntry] at hf
  · rintro ⟨hmem, hlo, hhi⟩
    exact ⟨(MvccKey.version raw w, val), hmem, by simp [versionEntry, hlo, hhi]⟩

theorem scanVersions_sorted (db : Db) (raw : Bytes) (lo hi : Nat) :
    VSorted (scanVersions db raw lo hi) :=
  vsorted_sortV _

theorem listMin_eq_none {l : List Nat} : listMin l = none ↔ l = [] := by
  cases l with
  | nil => simp [listMin]
  | cons a rest =>
      constructor
      · intro h
        exfalso
        cases hr : listMin rest <;> simp [listMin, hr] at h
      · intro h
        cases h

theorem listMin_spec : ∀ {l : List Nat} {m : Nat},
    listMin l = some m → m ∈ l ∧ ∀ a ∈ l, m ≤ a
  | [], _, h => by cases h
  | a :: rest, m, h => by
      cases hr : listMin rest with
      | none =>
          rw [listMin_eq_none.mp hr] at h ⊢
          simp [listMin] at h
          subst h
          simp
      | some m' =>
          simp only [listMin, hr] at h
          injection h with h
          subst h
          obtain ⟨hmem, hle⟩ := listMin_spec hr
          constructor
          · by_cases hm : a ≤ m'
            · have hmin : min2 a m' = a := by simp [min2, hm]
              rw [hmin]
              exact List.mem_cons_self _ _
            · have hmin : min2 a m' = m' := by simp [min2, hm]
              rw [hmin]
              exact List.mem_cons.mpr (Or.inr hmem)
          · intro b hb
            have h1 : min2 a m' ≤ a := by unfold min2; split <;> omega
            have h2 : min2 a m' ≤ m' := by unfold min2; split <;> omega
            rcases List.mem_cons.mp hb with rfl | hb'
            · exact h1
            · exact le_trans h2 (hle b hb')

theorem foldr_min_eq : ∀ {l : List Nat} {base : Nat},
    l.foldr min2 base =
      match listMin l with
      | none => base
      | some m => min2 base m
  | [], base => by simp [listMin]
  | a :: rest, base => by
      rw [List.foldr_cons, foldr_min_eq]
      cases hr : listMin rest with
      | none =>
          simp only [listMin, hr]
          by_cases h1 : a ≤ base <;> by_cases h2 : base ≤ a <;>
            simp [min2, h1, h2] <;> omega
      | some m =>
          simp only [listMin, hr]
          by_cases h1 : base ≤ m <;> by_cases h2 : a ≤ m <;> by_cases h3 : a ≤ base <;>
            simp [min2, h1, h2, h3] <;> first
            | omega
            | (split_ifs <;> omega)

theorem writeLo_eq_claimLo {st : TransactionState}
    (hA : ∀ a ∈ st.active_versions, a < st.version) :
    writeLo st = claimLo st := by
  unfold writeLo claimLo
  rw [foldr_min_eq]
  cases hm : listMin st.active_versions with
  | none => simp
  | some m =>
      simp only
      obtain ⟨hmem, _⟩ := listMin_spec hm
      have hlt : m < st.version := hA m hmem
      unfold min2
      have hneg : ¬ (st.version + 1 ≤ m) := by omega
      rw [if_neg hneg]

theorem claimLo_le {st : TransactionState} {a : Nat}
    (ha : a ∈ st.active_versions) : claimLo st ≤ a := by
  unfold claimLo
  rw [foldr_min_eq]
  cases hm : listMin st.active_versions with
  | none =>
      rw [listMin_eq_none.mp hm] at ha
      cases ha
  | some m =>
      obtain ⟨_, hle⟩ := listMin_spec hm
      have h2 : min2 (st.version + 1) m ≤ m := by unfold min2; split <;> omega
      exact le_trans h2 (hle a ha)

theorem is_visible_true_iff (st : TransactionState) (w : Nat) :
    st.is_visible w = true ↔ (w ≤ st.version ∧ w ∉ st.active_versions) := by
  unfold TransactionState.is_visible
  by_cases h : st.active_versions.contains w <;> simp [h] <;> tauto

theorem scan_getLast_max {db : Db} {raw : Bytes} {lo hi w : Nat} {val : EVal}
    (h : (scanVersions db raw lo hi).getLast? = some (w, val)) :
    (MvccKey.version raw w, val) ∈ db ∧ lo ≤ w ∧ w ≤ hi ∧
      ∀ w' val', (MvccKey.version raw w', val') ∈ db → lo ≤ w' → w' ≤ hi → w' ≤ w := by
  have hmem := mem_scanVersions.mp (getLast?_mem' h)
  refine ⟨hmem.1, hmem.2.1, hmem.2.2, ?_⟩
  intro w' val' hm hlo hhi
  exact vsorted_le_getLast (scanVersions_sorted db raw lo hi) h (w', val')
    (mem_scanVersions.mpr ⟨hm, hlo, hhi⟩)

theorem scan_getLast_none {db : Db} {raw : Bytes} {lo hi : Nat}
    (h : (scanVersions db raw lo hi).getLast? = none) :
    ∀ w val, (MvccKey.version raw w, val) ∈ db → lo ≤ w → w ≤ hi → False := by
  rw [getLast?_eq_none'] at h
  intro w val hm hlo hhi
  have hmem := mem_scanVersions.mpr ⟨hm, hlo, hhi⟩
  rw [h] at hmem
  cases hmem

theorem write_inner_eq_some {db : Db} {st : TransactionState} {raw : Bytes}
    {value : Option Bytes} {w : Nat} {val : EVal}
    (hlast : (scanVersions db raw (writeLo st) u64Max).getLast? = some (w, val)) :
    write_inner db st raw value =
      if ¬ st.is_visible w = true then Except.error Err.writeConflict
      else Except.ok (writeSuccess db st raw value) := by
  unfold write_inner
  rw [hlast]

theorem write_inner_eq_none {db : Db} {st : TransactionState} {raw : Bytes}
    {value : Option Bytes}
    (hlast : (scanVersions db raw (writeLo st) u64Max).getLast? = none) :
    write_inner db st raw value = Except.ok (writeSuccess db st raw value) := by
  unfold write_inner
  rw [hlast]

theorem write_inner_cases (db : Db) (st : TransactionState) (raw : Bytes)
    (value : Option Bytes) :
    (∃ w val, (scanVersions db raw (writeLo st) u64Max).getLast? = some (w, val) ∧
      st.is_visible w = false ∧
      write_inner db st raw value = Except.error Err.writeConflict) ∨
    write_inner db st raw value = Except.ok (writeSuccess db st raw value) := by
  cases hlast : (scanVersions db raw (writeLo st) u64Max).getLast? with
  | none => exact Or.inr (write_inner_eq_none hlast)
  | some p =>
      obtain ⟨w, val⟩ := p
      cases hv : st.is_visible w with
      | false =>
          refine Or.inl ⟨w, val, rfl, hv, ?_⟩
          rw [write_inner_eq_some hlast, if_pos (by simp [hv])]
      | true =>
          refine Or.inr ?_
          rw [write_inner_eq_some hlast, if_neg (not_not_intro hv)]

theorem getLoop_skip {st : TransactionState} :
    ∀ {l : List (Nat × EVal)}, (∀ x ∈ l, st.is_visible x.1 = false) →
      getLoop st l = Except.ok none
  | [], _ => rfl
  | (w0, v0) :: rest, h => by
      unfold getLoop
      rw [if_neg (by simp [h (w0, v0) (List.mem_cons_self _ _)])]
      exact getLoop_skip (fun x hx => h x (List.mem_cons_of_mem _ hx))

theorem getLoop_hit {st : TransactionState} :
    ∀ {l : List (Nat × EVal)} {w : Nat} {o : Option Bytes},
      l.Pairwise (fun a b => b.1 ≤ a.1) →
      (w, EVal.vopt o) ∈ l →
      st.is_visible w = true →
      (∀ x ∈ l, st.is_visible x.1 = true → x.1 ≤ w) →
      (∀ x ∈ l, x.1 = w → x.2 = EVal.vopt o) →
      getLoop st l = Except.ok o
  | [], _, _, _, hmem, _, _, _ => by cases hmem
  | (w0, v0) :: rest, w, o, hdesc, hmem, hvis, hmax, huniq => by
      rw [List.pairwise_cons] at hdesc
      unfold getLoop
      by_cases hv0 : st.is_visible w0 = true
      · rw [if_pos hv0]
        have hw0le : w0 ≤ w := hmax (w0, v0) (List.mem_cons_self _ _) hv0
        have hwle : w ≤ w0 := by
          rcases List.mem_cons.mp hmem with heq | hmem'
          · cases heq
            exact le_refl _
          · exact hdesc.1 _ hmem'
        have hval : v0 = EVal.vopt o :=
          huniq (w0, v0) (List.mem_cons_self _ _) (le_antisymm hw0le hwle)
        rw [hval]
        rfl
      · rw [if_neg hv0]
        have hmem' : (w, EVal.vopt o) ∈ rest := by
          rcases List.mem_cons.mp hmem with heq | h
          · exfalso
            cases heq
            exact hv0 hvis
          · exact h
        exact getLoop_hit hdesc.2 hmem' hvis
          (fun x hx => hmax x (List.mem_cons_of_mem _ hx))
          (fun x hx => huniq x (List.mem_cons_of_mem _ hx))

theorem mget_hit {db : Db} {st : TransactionState} {raw : Bytes} {w : Nat}
    {o : Option Bytes} (hwf : wfKeys db)
    (hmem : (MvccKey.version raw w, EVal.vopt o) ∈ db)
    (hle : w ≤ st.version) (hnin : w ∉ st.active_versions)
    (hmax : ∀ w', VersionInDb db raw w' → w' ≤ st.version →
      w' ∉ st.active_versions → w' ≤ w) :
    mget db st raw = Except.ok o := by
  unfold mget
  apply getLoop_hit
  · exact List.pairwise_reverse.mpr (scanVersions_sorted db raw 0 st.version)
  · exact List.mem_reverse.mpr (mem_scanVersions.mpr ⟨hmem, Nat.zero_le _, hle⟩)
  · exact (is_visible_true_iff st w).mpr ⟨hle, hnin⟩
  · intro x hx hxvis
    obtain ⟨x1, x2⟩ := x
    obtain ⟨hxdb, _, hxle⟩ := mem_scanVersions.mp (List.mem_reverse.mp hx)
    have hvis' := (is_visible_true_iff st x1).mp hxvis
    exact hmax x1 ⟨x2, hxdb⟩ hxle hvis'.2
  · intro x hx hxw
    obtain ⟨x1, x2⟩ := x
    simp only at hxw
    subst hxw
    have hxdb := (mem_scanVersions.mp (List.mem_reverse.mp hx)).1
    exact wfKeys_val_unique hwf hxdb hmem

theorem mget_none {db : Db} {st : TransactionState} {raw : Bytes}
    (hnone : ∀ w, VersionInDb db raw w → w ≤ st.version → w ∈ st.active_versions) :
    mget db st raw = Except.ok none := by
  unfold mget
  apply getLoop_skip
  intro x hx
  obtain ⟨x1, x2⟩ := x
  obtain ⟨hxdb, _, hxle⟩ := mem_scanVersions.mp (List.mem_reverse.mp hx)
  have hmem := hnone x1 ⟨x2, hxdb⟩ hxle
  unfold TransactionState.is_visible
  have hc : x1 ∈ st.active_versions := hmem
  simp [hc]

theorem mem_txnWriteKeyList {db : Db} {v : Nat} {k : MvccKey} :
    k ∈ txnWriteKeyList db v ↔
      ∃ raw, k = MvccKey.txnWrite v raw ∧ TxnWriteInDb db v raw := by
  unfold txnWriteKeyList
  rw [List.mem_filterMap]
  constructor
  · rintro ⟨⟨ke, ve⟩, he, hf⟩
    cases ke with
    | txnWrite w raw =>
        have hf' : (if w = v then some (MvccKey.txnWrite w raw) else none) = some k := hf
        split_ifs at hf' with hw
        injection hf' with hf'
        subst hw
        exact ⟨raw, hf'.symm, ⟨ve, he⟩⟩
    | nextVersion => exact Option.noConfusion (show (none : Option MvccKey) = some k from hf)
    | txnActive a => exact Option.noConfusion (show (none : Option MvccKey) = some k from hf)
    | version r a => exact Option.noConfusion (show (none : Option MvccKey) = some k from hf)
  · rintro ⟨raw, rfl, ⟨val, hval⟩⟩
    exact ⟨(MvccKey.txnWrite v raw, val), hval, by simp⟩

theorem mem_rollbackKeyList {db : Db} {v : Nat} {k : MvccKey} :
    k ∈ rollbackKeyList db v ↔
      ∃ raw, TxnWriteInDb db v raw ∧
        (k = MvccKey.version raw v ∨ k = MvccKey.txnWrite v raw) := by
  induction db with
  | nil => simp [rollbackKeyList, TxnWriteInDb]
  | cons e rest ih =>
      obtain ⟨ke, ve⟩ := e
      constructor
      · intro hk
        unfold rollbackKeyList at hk
        rw [List.mem_append] at hk
        rcases hk with hk | hk
        · cases ke with
          | txnWrite w raw =>
              have hk' : k ∈ (if w = v then
                  [MvccKey.version raw v, MvccKey.txnWrite w raw] else []) := hk
              split_ifs at hk' with hw
              · subst hw
                refine ⟨raw, ⟨ve, List.mem_cons_self _ _⟩, ?_⟩
                rcases List.mem_cons.mp hk' with rfl | hk''
                · exact Or.inl rfl
                · rcases List.mem_singleton.mp hk'' with rfl
                  exact Or.inr rfl
              · cases hk'
          | nextVersion => cases hk
          | txnActive a => cases hk
          | version r a => cases hk
        · obtain ⟨raw, ⟨val, hval⟩, hor⟩ := ih.mp hk
          exact ⟨raw, ⟨val, List.mem_cons_of_mem _ hval⟩, hor⟩
      · rintro ⟨raw, ⟨val, hval⟩, hor⟩
        unfold rollbackKeyList
        rw [List.mem_append]
        rcases List.mem_cons.mp hval with heq | hval'
        · cases heq
          left
          have hmem2 : k ∈ [MvccKey.version raw v, MvccKey.txnWrite v raw] := by
            rcases hor with rfl | rfl
            · exact List.mem_cons_self _ _
            · exact List.mem_cons.mpr (Or.inr (List.mem_singleton.mpr rfl))
          show k ∈ (if v = v then
              [MvccKey.version raw v, MvccKey.txnWrite v raw] else [])
          rw [if_pos rfl]
          exact hmem2
        · right
          exact ih.mpr ⟨raw, ⟨val, hval'⟩, hor⟩

theorem mem_commit {db : Db} {v : Nat} {x : MvccKey × EVal} :
    x ∈ commit db v ↔
      x ∈ db ∧ x.1 ∉ txnWriteKeyList db v ∧ x.1 ≠ MvccKey.txnActive v := by
  unfold commit
  rw [mem_dbDelete, mem_foldl_dbDelete]
  tauto

theorem mem_rollback {db : Db} {v : Nat} {x : MvccKey × EVal} :
    x ∈ rollback db v ↔
      x ∈ db ∧ x.1 ∉ rollbackKeyList db v ∧ x.1 ≠ MvccKey.txnActive v := by
  unfold rollback
  rw [mem_dbDelete, mem_foldl_dbDelete]
  tauto

/-- C2.  For every transaction state whose active snapshot sits below its
own version (as `begin` guarantees) and a store whose version numbers fit
in `u64`: `set` and `delete` (both `write_inner`) fail with `WriteConflict`
iff some stored version of the key at or above `min(active ∪ {v+1})`
exists whose maximum is not visible to the transaction; otherwise they
succeed, writing `TxnWrite(v, key)` and then `Version(key, v)` holding the
serialized optional value. -/
theorem write_conflict_spec (db : Db) (st : TransactionState) (raw : Bytes)
    (value : Option Bytes)
    (hA : ∀ a ∈ st.active_versions, a < st.version)
    (hbound : ∀ r w val, (MvccKey.version r w, val) ∈ db → w ≤ u64Max) :
    (write_inner db st raw value = Except.error Err.writeConflict ↔
      ClaimConflict db st raw) ∧
    (write_inner db st raw value = Except.error Err.writeConflict ∨
      write_inner db st raw value = Except.ok (writeSuccess db st raw value)) := by
  have hlo := writeLo_eq_claimLo hA
  constructor
  · constructor
    · intro herr
      rcases write_inner_cases db st raw value with ⟨w, val, hlast, hv, _⟩ | hok
      · obtain ⟨hmem, hwlo, _, hmax⟩ := scan_getLast_max hlast
        refine ⟨w, ⟨val, hmem⟩, hlo ▸ hwlo, ?_, ?_⟩
        · intro w' hvid hlo'
          obtain ⟨val', hm'⟩ := hvid
          exact hmax w' val' hm' (hlo ▸ hlo') (hbound _ _ _ hm')
        · intro hcon
          have hvt := (is_visible_true_iff st w).mpr hcon
          simp [hv] at hvt
      · rw [hok] at herr
        exact Except.noConfusion herr
    · intro hclaim
      obtain ⟨w, ⟨val, hmem⟩, hwlo, hmax, hnvis⟩ := hclaim
      cases hlast : (scanVersions db raw (writeLo st) u64Max).getLast? with
      | none =>
          exact (scan_getLast_none hlast w val hmem (hlo ▸ hwlo)
            (hbound _ _ _ hmem)).elim
      | some p =>
          obtain ⟨w0, val0⟩ := p
          obtain ⟨hmem0, hw0lo, _, hmax0⟩ := scan_getLast_max hlast
          have h1 : w ≤ w0 := hmax0 w val hmem (hlo ▸ hwlo) (hbound _ _ _ hmem)
          have h2 : w0 ≤ w := hmax w0 ⟨val0, hmem0⟩ (hlo ▸ hw0lo)
          have hww : w0 = w := le_antisymm h2 h1
          rw [write_inner_eq_some hlast,
            if_pos (fun hv => hnvis (hww ▸ (is_visible_true_iff st w0).mp hv))]
  · rcases write_inner_cases db st raw value with ⟨w, val, _, _, herr⟩ | hok
    · exact Or.inl herr
    · exact Or.inr hok

/-- Instantiation of `write_conflict_spec` on the empty store: no conflict,
and the success write is performed. -/
theorem write_conflict_spec_witness :
    (∀ a ∈ ([] : List Nat), a < 1) ∧
    ((write_inner [] ⟨1, []⟩ [0] (some [1]) = Except.error Err.writeConflict ↔
      ClaimConflict [] ⟨1, []⟩ [0]) ∧
     (write_inner [] ⟨1, []⟩ [0] (some [1]) = Except.error Err.writeConflict ∨
      write_inner [] ⟨1, []⟩ [0] (some [1]) =
        Except.ok (writeSuccess [] ⟨1, []⟩ [0] (some [1])))) :=
  ⟨by simp, write_conflict_spec [] ⟨1, []⟩ [0] (some [1]) (by simp) (by simp)⟩

/-- C3.  After `commit` of version `v` no `TxnWrite(v, raw)` and no
`TxnActive(v)` entry remains while every `Version(raw, v)` entry is kept;
after `rollback` none of the three remains (using the store invariant that
a `Version(raw, v)` entry only exists alongside its `TxnWrite(v, raw)`
record); and versioned entries of keys the transaction never wrote are
untouched by both. -/
theorem commit_rollback_cleanup (db : Db) (v : Nat) (raw : Bytes)
    (hinv : ∀ r, VersionInDb db r v → TxnWriteInDb db v r) :
    (∀ val, (MvccKey.txnWrite v raw, val) ∉ commit db v) ∧
    (∀ val, (MvccKey.txnActive v, val) ∉ commit db v) ∧
    (∀ val, ((MvccKey.version raw v, val) ∈ commit db v ↔
      (MvccKey.version raw v, val) ∈ db)) ∧
    (∀ val, (MvccKey.txnWrite v raw, val) ∉ rollback db v) ∧
    (∀ val, (MvccKey.version raw v, val) ∉ rollback db v) ∧
    (∀ val, (MvccKey.txnActive v, val) ∉ rollback db v) ∧
    (¬ TxnWriteInDb db v raw →
      ∀ w val, ((MvccKey.version raw w, val) ∈ commit db v ↔
          (MvccKey.version raw w, val) ∈ db) ∧
        ((MvccKey.version raw w, val) ∈ rollback db v ↔
          (MvccKey.version raw w, val) ∈ db)) := by
  refine ⟨?_, ?_, ?_, ?_, ?_, ?_, ?_⟩
  · intro val hmem
    have h := mem_commit.mp hmem
    exact h.2.1 (mem_txnWriteKeyList.mpr ⟨raw, rfl, ⟨val, h.1⟩⟩)
  · intro val hmem
    exact (mem_commit.mp hmem).2.2 rfl
  · intro val
    rw [mem_commit]
    constructor
    · exact fun h => h.1
    · intro hmem
      refine ⟨hmem, ?_, ?_⟩
      · intro hc
        obtain ⟨r, heq, _⟩ := mem_txnWriteKeyList.mp hc
        exact MvccKey.noConfusion heq
      · intro h
        exact MvccKey.noConfusion h
  · intro val hmem
    have h := mem_rollback.mp hmem
    exact h.2.1 (mem_rollbackKeyList.mpr ⟨raw, ⟨val, h.1⟩, Or.inr rfl⟩)
  · intro val hmem
    have h := mem_rollback.mp hmem
    exact h.2.1 (mem_rollbackKeyList.mpr ⟨raw, hinv raw ⟨val, h.1⟩, Or.inl rfl⟩)
  · intro val hmem
    exact (mem_rollback.mp hmem).2.2 rfl
  · intro hnw w val
    constructor
    · rw [mem_commit]
      constructor
      · exact fun h => h.1
      · intro hmem
        refine ⟨hmem, ?_, fun h => MvccKey.noConfusion h⟩
        intro hc
        obtain ⟨r, heq, _⟩ := mem_txnWriteKeyList.mp hc
        exact MvccKey.noConfusion heq
    · rw [mem_rollback]
      constructor
      · exact fun h => h.1
      · intro hmem
        refine ⟨hmem, ?_, fun h => MvccKey.noConfusion h⟩
        intro hc
        obtain ⟨r, hT, hor⟩ := mem_rollbackKeyList.mp hc
        rcases hor with heq | heq
        · injection heq with h1 h2
          subst h1
          exact hnw hT
        · exact MvccKey.noConfusion heq

/-- Instantiation of `commit_rollback_cleanup` on a three-entry store
holding exactly one transaction's metadata and write. -/
theorem commit_rollback_cleanup_witness :
    (∀ r, VersionInDb [(MvccKey.txnActive 1, EVal.unit),
        (MvccKey.txnWrite 1 [7], EVal.unit),
        (MvccKey.version [7] 1, EVal.vopt (some [1]))] r 1 →
      TxnWriteInDb [(MvccKey.txnActive 1, EVal.unit),
        (MvccKey.txnWrite 1 [7], EVal.unit),
        (MvccKey.version [7] 1, EVal.vopt (some [1]))] 1 r) ∧
    ((∀ val, (MvccKey.txnWrite 1 [7], val) ∉
        commit [(MvccKey.txnActive 1, EVal.unit),
          (MvccKey.txnWrite 1 [7], EVal.unit),
          (MvccKey.version [7] 1, EVal.vopt (some [1]))] 1) ∧
     (∀ val, (MvccKey.txnActive 1, val) ∉
        commit [(MvccKey.txnActive 1, EVal.unit),
          (MvccKey.txnWrite 1 [7], EVal.unit),
          (MvccKey.version [7] 1, EVal.vopt (some [1]))] 1) ∧
     (∀ val, ((MvccKey.version [7] 1, val) ∈
        commit [(MvccKey.txnActive 1, EVal.unit),
          (MvccKey.txnWrite 1 [7], EVal.unit),
          (MvccKey.version [7] 1, EVal.vopt (some [1]))] 1 ↔
        (MvccKey.version [7] 1, val) ∈
          [(MvccKey.txnActive 1, EVal.unit),
           (MvccKey.txnWrite 1 [7], EVal.unit),
           (MvccKey.version [7] 1, EVal.vopt (some [1]))])) ∧
     (∀ val, (MvccKey.txnWrite 1 [7], val) ∉
        rollback [(MvccKey.txnActive 1, EVal.unit),
          (MvccKey.txnWrite 1 [7], EVal.unit),
          (MvccKey.version [7] 1, EVal.vopt (some [1]))] 1) ∧
     (∀ val, (MvccKey.version [7] 1, val) ∉
        rollback [(MvccKey.txnActive 1, EVal.unit),
          (MvccKey.txnWrite 1 [7], EVal.unit),
          (MvccKey.version [7] 1, EVal.vopt (some [1]))] 1) ∧
     (∀ val, (MvccKey.txnActive 1, val) ∉
        rollback [(MvccKey.txnActive 1, EVal.unit),
          (MvccKey.txnWrite 1 [7], EVal.unit),
          (MvccKey.version [7] 1, EVal.vopt (some [1]))] 1) ∧
     (¬ TxnWriteInDb [(MvccKey.txnActive 1, EVal.unit),
          (MvccKey.txnWrite 1 [7], EVal.unit),
          (MvccKey.version [7] 1, EVal.vopt (some [1]))] 1 [7] →
      ∀ w val, ((MvccKey.version [7] w, val) ∈
          commit [(MvccKey.txnActive 1, EVal.unit),
            (MvccKey.txnWrite 1 [7], EVal.unit),
            (MvccKey.version [7] 1, EVal.vopt (some [1]))] 1 ↔
          (MvccKey.version [7] w, val) ∈
            [(MvccKey.txnActive 1, EVal.unit),
             (MvccKey.txnWrite 1 [7], EVal.unit),
             (MvccKey.version [7] 1, EVal.vopt (some [1]))]) ∧
        ((MvccKey.version [7] w, val) ∈
          rollback [(MvccKey.txnActive 1, EVal.unit),
            (MvccKey.txnWrite 1 [7], EVal.unit),
            (MvccKey.version [7] 1, EVal.vopt (some [1]))] 1 ↔
          (MvccKey.version [7] w, val) ∈
            [(MvccKey.txnActive 1, EVal.unit),
             (MvccKey.txnWrite 1 [7], EVal.unit),
             (MvccKey.version [7] 1, EVal.vopt (some [1]))]))) := by
  have hinv : ∀ r, VersionInDb [(MvccKey.txnActive 1, EVal.unit),
      (MvccKey.txnWrite 1 [7], EVal.unit),
      (MvccKey.version [7] 1, EVal.vopt (some [1]))] r 1 →
      TxnWriteInDb [(MvccKey.txnActive 1, EVal.unit),
        (MvccKey.txnWrite 1 [7], EVal.unit),
        (MvccKey.version [7] 1, EVal.vopt (some [1]))] 1 r := by
    intro r hr
    obtain ⟨val, hval⟩ := hr
    simp only [List.mem_cons, List.not_mem_nil, or_false] at hval
    rcases hval with h | h | h
    · exact absurd h (by simp)
    · exact absurd h (by simp)
    · have hr7 : r = [7] := by
        have := congrArg Prod.fst h
        simpa using this
      subst hr7
      exact ⟨EVal.unit, by simp⟩
  exact ⟨hinv, commit_rollback_cleanup _ 1 [7] hinv⟩

/-- C4.  `get(raw)` returns the deserialized payload stored at the maximum
version `w ≤ v` outside the active snapshot (`None` exactly for a
tombstone payload), and returns `None` when no visible version of the key
exists. -/
theorem get_snapshot_spec (db : Db) (st : TransactionState) (raw : Bytes)
    (hwf : wfKeys db) :
    (∀ w o, (MvccKey.version raw w, EVal.vopt o) ∈ db → w ≤ st.version →
      w ∉ st.active_versions →
      (∀ w', VersionInDb db raw w' → w' ≤ st.version →
        w' ∉ st.active_versions → w' ≤ w) →
      mget db st raw = Except.ok o) ∧
    ((∀ w, VersionInDb db raw w → w ≤ st.version → w ∈ st.active_versions) →
      mget db st raw = Except.ok none) :=
  ⟨fun _ _ hmem hle hnin hmax => mget_hit hwf hmem hle hnin hmax,
   fun h => mget_none h⟩

/-- Instantiation of `get_snapshot_spec`: the latest visible version wins,
and a tombstone reads back as `None`. -/
theorem get_snapshot_spec_witness :
    wfKeys [(MvccKey.version [1] 1, EVal.vopt (some [9])),
      (MvccKey.version [1] 2, EVal.vopt none)] ∧
    mget [(MvccKey.version [1] 1, EVal.vopt (some [9])),
      (MvccKey.version [1] 2, EVal.vopt none)] ⟨2, []⟩ [1] = Except.ok none := by
  have hwf : wfKeys [(MvccKey.version [1] 1, EVal.vopt (some [9])),
      (MvccKey.version [1] 2, EVal.vopt none)] := by
    unfold wfKeys
    decide
  refine ⟨hwf, (get_snapshot_spec _ ⟨2, []⟩ [1] hwf).1 2 none (by simp) (by decide)
    (by decide) ?_⟩
  intro w' hvid _ _
  obtain ⟨val, hval⟩ := hvid
  simp only [List.mem_cons, List.not_mem_nil, or_false] at hval
  rcases hval with h | h
  · have := congrArg Prod.fst h
    simp at this
    omega
  · have := congrArg Prod.fst h
    simp at this
    omega

/-- C10.  When the latest stored version of a key is the transaction's own
version, a further `set` or `delete` by the same transaction succeeds
(never `WriteConflict`), and a subsequent `get` observes the transaction's
own most recent write — the new value after `set`, `None` after its own
`delete`. -/
theorem own_write_read_back (db : Db) (st : TransactionState) (raw v2 : Bytes)
    (hwf : wfKeys db)
    (hA : ∀ a ∈ st.active_versions, a < st.version)
    (hself : st.version ∉ st.active_versions)
    (hbound : ∀ r w val, (MvccKey.version r w, val) ∈ db → w ≤ u64Max)
    (hlatest : VersionInDb db raw st.version)
    (hmaxv : ∀ w, VersionInDb db raw w → w ≤ st.version) :
    (mset db st raw v2 = Except.ok (writeSuccess db st raw (some v2)) ∧
      mdelete db st raw = Except.ok (writeSuccess db st raw none)) ∧
    mget (writeSuccess db st raw (some v2)) st raw = Except.ok (some v2) ∧
    mget (writeSuccess db st raw none) st raw = Except.ok none := by
  have hnoconf : ∀ value,
      write_inner db st raw value = Except.ok (writeSuccess db st raw value) := by
    intro value
    rcases write_inner_cases db st raw value with ⟨w, val, hlast, hv, _⟩ | hok
    · exfalso
      obtain ⟨hmem, hwlo, _, hmax0⟩ := scan_getLast_max hlast
      have hwle : w ≤ st.version := hmaxv w ⟨val, hmem⟩
      cases hm : listMin st.active_versions with
      | none =>
          have hwl : writeLo st = st.version + 1 := by
            unfold writeLo
            rw [hm]
          rw [hwl] at hwlo
          omega
      | some m =>
          have hwl : writeLo st = m := by
            unfold writeLo
            rw [hm]
          obtain ⟨hmmem, _⟩ := listMin_spec hm
          have hmlt : m < st.version := hA m hmmem
          obtain ⟨vval, hvmem⟩ := hlatest
          have hvle : st.version ≤ u64Max := hbound _ _ _ hvmem
          have hvw : st.version ≤ w := hmax0 st.version vval hvmem (by omega) hvle
          have hww : w = st.version := le_antisymm hwle hvw
          have hvt : st.is_visible w = true :=
            (is_visible_true_iff st w).mpr ⟨hwle, hww ▸ hself⟩
          simp [hv] at hvt
    · exact hok
  have hget : ∀ value,
      mget (writeSuccess db st raw value) st raw = Except.ok value := by
    intro value
    have hwf' : wfKeys (writeSuccess db st raw value) :=
      wfKeys_dbSet (wfKeys_dbSet hwf)
    apply mget_hit hwf'
    · exact mem_dbSet.mpr (Or.inl ⟨rfl, rfl⟩)
    · exact le_refl _
    · exact hself
    · intro w' hvid _ _
      obtain ⟨val', hm'⟩ := hvid
      rcases mem_dbSet.mp hm' with ⟨hkeq, _⟩ | ⟨_, hm''⟩
      · simp only [MvccKey.version.injEq] at hkeq
        omega
      · rcases mem_dbSet.mp hm'' with ⟨hkeq, _⟩ | ⟨_, hm3⟩
        · exact MvccKey.noConfusion hkeq
        · exact hmaxv w' ⟨val', hm3⟩
  exact ⟨⟨hnoconf (some v2), hnoconf none⟩, hget (some v2), hget none⟩

/-- Instantiation of `own_write_read_back` on a one-entry store written by
the running transaction itself. -/
theorem own_write_read_back_witness :
    wfKeys [(MvccKey.version [1] 1, EVal.vopt (some [5]))] ∧
    ((mset [(MvccKey.version [1] 1, EVal.vopt (some [5]))] ⟨1, []⟩ [1] [9] =
        Except.ok (writeSuccess [(MvccKey.version [1] 1, EVal.vopt (some [5]))]
          ⟨1, []⟩ [1] (some [9])) ∧
      mdelete [(MvccKey.version [1] 1, EVal.vopt (some [5]))] ⟨1, []⟩ [1] =
        Except.ok (writeSuccess [(MvccKey.version [1] 1, EVal.vopt (some [5]))]
          ⟨1, []⟩ [1] none)) ∧
     mget (writeSuccess [(MvccKey.version [1] 1, EVal.vopt (some [5]))]
        ⟨1, []⟩ [1] (some [9])) ⟨1, []⟩ [1] = Except.ok (some [9]) ∧
     mget (writeSuccess [(MvccKey.version [1] 1, EVal.vopt (some [5]))]
        ⟨1, []⟩ [1] none) ⟨1, []⟩ [1] = Except.ok none) := by
  have hwf : wfKeys [(MvccKey.version [1] 1, EVal.vopt (some [5]))] := by
    unfold wfKeys
    decide
  have hmaxv : ∀ w, VersionInDb [(MvccKey.version [1] 1, EVal.vopt (some [5]))] [1] w →
      w ≤ 1 := by
    intro w hvid
    obtain ⟨val, hval⟩ := hvid
    simp only [List.mem_cons, List.not_mem_nil, or_false] at hval
    have := congrArg Prod.fst hval
    simp at this
    omega
  have hbound : ∀ r w val,
      (MvccKey.version r w, val) ∈ [(MvccKey.version [1] 1, EVal.vopt (some [5]))] →
      w ≤ u64Max := by
    intro r w val hmem
    simp only [List.mem_cons, List.not_mem_nil, or_false] at hmem
    have hw : w = 1 := by
      have := congrArg Prod.fst hmem
      simp at this
      omega
    subst hw
    decide
  exact ⟨hwf, own_write_read_back _ ⟨1, []⟩ [1] [9] hwf (by simp) (by decide)
    hbound ⟨EVal.vopt (some [5]), by simp⟩ hmaxv⟩

theorem except_bind_ok {E α β : Type} (a : α) (f : α → Except E β) :
    (Bind.bind (Except.ok a) f : Except E β) = f a := rfl

theorem except_pure_eq {E α : Type} (a : α) :
    (pure a : Except E α) = Except.ok a := rfl

theorem countLoop_eq (pos : Nat) : ∀ rows : List Row,
    countLoop pos rows =
      ((rows.filter (fun row => cellAt row pos ≠ Value.null)).length : Int)
  | [] => rfl
  | row :: rest => by
      unfold countLoop
      rw [countLoop_eq pos rest]
      by_cases he : cellAt row pos = Value.null
      · rw [if_neg (not_not_intro he)]
        simp [List.filter_cons, he]
      · rw [if_pos he]
        simp [List.filter_cons, he]
        omega

theorem sumLoop_eq (pos : Nat) : ∀ (rows : List Row) (acc : Option Rat),
    (∀ row ∈ rows, numericOrNull (cellAt row pos) = true) →
    sumLoop pos acc rows = Except.ok (sumResult acc (nonNullCells pos rows))
  | [], acc, _ => by
      cases acc <;> simp [sumLoop, sumResult, nonNullCells]
  | row :: rest, acc, hnum => by
      have hhead := hnum row (List.mem_cons_self _ _)
      have htail : ∀ r ∈ rest, numericOrNull (cellAt r pos) = true :=
        fun r hr => hnum r (List.mem_cons_of_mem _ hr)
      cases hc : cellAt row pos with
      | null =>
          simp only [sumLoop, hc]
          rw [sumLoop_eq pos rest acc htail]
          have hcells : nonNullCells pos (row :: rest) = nonNullCells pos rest := by
            simp [nonNullCells, List.filter_cons, hc]
          rw [hcells]
      | integer v =>
          simp only [sumLoop, hc]
          rw [sumLoop_eq pos rest (some (acc.getD 0 + (v : Rat))) htail]
          have hcells : nonNullCells pos (row :: rest) =
              (v : Rat) :: nonNullCells pos rest := by
            simp [nonNullCells, List.filter_cons, hc, cellRat]
          rw [hcells]
          cases acc <;> simp [sumResult] <;> ring
      | float v =>
          simp only [sumLoop, hc]
          rw [sumLoop_eq pos rest (some (acc.getD 0 + v)) htail]
          have hcells : nonNullCells pos (row :: rest) =
              v :: nonNullCells pos rest := by
            simp [nonNullCells, List.filter_cons, hc, cellRat]
          rw [hcells]
          cases acc <;> simp [sumResult] <;> ring
      | boolean b =>
          rw [hc] at hhead
          simp [numericOrNull] at hhead
      | string s =>
          rw [hc] at hhead
          simp [numericOrNull] at hhead

theorem sumLoop_err (pos : Nat) : ∀ (rows : List Row) (acc : Option Rat),
    (∃ row ∈ rows, numericOrNull (cellAt row pos) = false) →
    ∃ msg, sumLoop pos acc rows = Except.error (Err.internal msg)
  | [], _, h => by
      obtain ⟨r, hr, _⟩ := h
      cases hr
  | row :: rest, acc, h => by
      cases hc : cellAt row pos with
      | null =>
          simp only [sumLoop, hc]
          apply sumLoop_err pos rest acc
          obtain ⟨r, hr, hf⟩ := h
          rcases List.mem_cons.mp hr with rfl | hr'
          · rw [hc] at hf
            simp [numericOrNull] at hf
          · exact ⟨r, hr', hf⟩
      | integer v =>
          simp only [sumLoop, hc]
          apply sumLoop_err pos rest
          obtain ⟨r, hr, hf⟩ := h
          rcases List.mem_cons.mp hr with rfl | hr'
          · rw [hc] at hf
            simp [numericOrNull] at hf
          · exact ⟨r, hr', hf⟩
      | float v =>
          simp only [sumLoop, hc]
          apply sumLoop_err pos rest
          obtain ⟨r, hr, hf⟩ := h
          rcases List.mem_cons.mp hr with rfl | hr'
          · rw [hc] at hf
            simp [numericOrNull] at hf
          · exact ⟨r, hr', hf⟩
      | boolean b => exact ⟨"can not calc column", by simp only [sumLoop, hc]⟩
      | string s => exact ⟨"can not calc column", by simp only [sumLoop, hc]⟩

/-- C5.  `COUNT` is an Integer counting the non-null cells of the column;
`SUM` is the Float sum of the non-null numeric cells (Null when there are
none, an error on a non-numeric non-null cell); `AVG` is
`Float(SUM / COUNT)` whenever `COUNT > 0`. -/
theorem aggregate_spec (col_name : String) (cols : List String)
    (rows : List Row) (pos : Nat)
    (hpos : colPos cols col_name = some pos)
    (hwf : ∀ row ∈ rows, pos < row.length) :
    (countCalc col_name cols rows = Except.ok (Value.integer
      ((rows.filter (fun row => cellAt row pos ≠ Value.null)).length : Int))) ∧
    ((∀ row ∈ rows, numericOrNull (cellAt row pos) = true) →
      sumCalc col_name cols rows = Except.ok
        (if nonNullCells pos rows = [] then Value.null
         else Value.float ((nonNullCells pos rows).sum))) ∧
    ((∃ row ∈ rows, numericOrNull (cellAt row pos) = false) →
      ∃ msg, sumCalc col_name cols rows = Except.error (Err.internal msg)) ∧
    ((∀ row ∈ rows, numericOrNull (cellAt row pos) = true) →
      0 < (rows.filter (fun row => cellAt row pos ≠ Value.null)).length →
      avgCalc col_name cols rows = Except.ok (Value.float
        ((nonNullCells pos rows).sum /
          (((rows.filter (fun row => cellAt row pos ≠ Value.null)).length : Int) :
            Rat)))) := by
  have ha : countCalc col_name cols rows = Except.ok (Value.integer
      ((rows.filter (fun row => cellAt row pos ≠ Value.null)).length : Int)) := by
    simp [countCalc, hpos, countLoop_eq pos rows]
  have hb : (∀ row ∈ rows, numericOrNull (cellAt row pos) = true) →
      sumCalc col_name cols rows = Except.ok
        (if nonNullCells pos rows = [] then Value.null
         else Value.float ((nonNullCells pos rows).sum)) := by
    intro hnum
    simp only [sumCalc, hpos]
    rw [sumLoop_eq pos rows none hnum]
    cases hcells : nonNullCells pos rows with
    | nil => simp [sumResult, Except.map]
    | cons c cs =>
        simp [sumResult, Except.map]
  refine ⟨ha, hb, ?_, ?_⟩
  · intro h
    obtain ⟨msg, hmsg⟩ := sumLoop_err pos rows none h
    refine ⟨msg, ?_⟩
    simp [sumCalc, hpos, hmsg, Except.map]
  · intro hnum hcount
    have hne : nonNullCells pos rows ≠ [] := by
      unfold nonNullCells
      intro hcon
      rw [List.map_eq_nil_iff] at hcon
      rw [hcon] at hcount
      simp at hcount
    have hs := hb hnum
    rw [if_neg hne] at hs
    simp only [avgCalc, hs, ha, except_bind_ok, except_pure_eq]

/-- Instantiation of `aggregate_spec` over the single column
`x = [3, NULL, 2.0]`. -/
theorem aggregate_spec_witness :
    colPos ["x"] "x" = some 0 ∧
    (∀ row ∈ [[Value.integer 3], [Value.null], [Value.float 2]],
      0 < row.length) ∧
    ((countCalc "x" ["x"] [[Value.integer 3], [Value.null], [Value.float 2]] =
      Except.ok (Value.integer
        (([[Value.integer 3], [Value.null], [Value.float 2]].filter
          (fun row => cellAt row 0 ≠ Value.null)).length : Int))) ∧
     ((∀ row ∈ [[Value.integer 3], [Value.null], [Value.float 2]],
        numericOrNull (cellAt row 0) = true) →
      sumCalc "x" ["x"] [[Value.integer 3], [Value.null], [Value.float 2]] =
        Except.ok
          (if nonNullCells 0 [[Value.integer 3], [Value.null], [Value.float 2]] = []
           then Value.null
           else Value.float
             ((nonNullCells 0 [[Value.integer 3], [Value.null], [Value.float 2]]).sum))) ∧
     ((∃ row ∈ [[Value.integer 3], [Value.null], [Value.float 2]],
        numericOrNull (cellAt row 0) = false) →
      ∃ msg, sumCalc "x" ["x"] [[Value.integer 3], [Value.null], [Value.float 2]] =
        Except.error (Err.internal msg)) ∧
     ((∀ row ∈ [[Value.integer 3], [Value.null], [Value.float 2]],
        numericOrNull (cellAt row 0) = true) →
      0 < ([[Value.integer 3], [Value.null], [Value.float 2]].filter
        (fun row => cellAt row 0 ≠ Value.null)).length →
      avgCalc "x" ["x"] [[Value.integer 3], [Value.null], [Value.float 2]] =
        Except.ok (Value.float
          ((nonNullCells 0 [[Value.integer 3], [Value.null], [Value.float 2]]).sum /
            ((([[Value.integer 3], [Value.null], [Value.float 2]].filter
              (fun row => cellAt row 0 ≠ Value.null)).length : Int) : Rat))))) := by
  refine ⟨rfl, by decide, aggregate_spec "x" ["x"]
    [[Value.integer 3], [Value.null], [Value.float 2]] 0 rfl (by decide)⟩

/-- C6 (code defect): `scan_prefix` over a prefix whose last byte is 0xFF
increments it into a wrap (release builds; debug builds panic on the
overflow itself), and the wrapped upper bound inverts the range, which
`BTreeMap::range` rejects by panicking — the stored key `[0xFF]`, which
begins with the prefix, is never yielded.  A prefix whose last byte is
below 0xFF behaves as the range `[p, p⁺)`. -/
theorem scan_prefix_ff_overflow :
    prefixScanE [([255], [7])] [255] = Except.error Err.outOfBounds ∧
    [255].isPrefixOf [255] = true ∧
    prefixScanE [([254], [7])] [254] = Except.ok [([254], [7])] := by
  exact ⟨rfl, rfl, rfl⟩

/-- C7 (code defect): the `Hash` implementation writes a discriminator
byte before each payload, but the source assigns byte 2 to both the
Integer and the String variant, so two values of different variants share
a discriminator. -/
theorem hash_discriminator_collision :
    variantIdx (Value.integer 0) ≠ variantIdx (Value.string "") ∧
    hashDiscriminator (Value.integer 0) = hashDiscriminator (Value.string "") := by
  decide

/-- C8 (code defect): with `outer = true` and an empty right result the
executor indexes `rrows[0]` and panics instead of emitting the left row
padded with right-width nulls; with a non-empty right result an unmatched
left row is padded with `rrows[0].len()` nulls, as the second conjunct
shows. -/
theorem outer_join_empty_right_panic :
    joinExecute ["a"] [[Value.integer 1]] ["b"] [] none true =
      Except.error Err.outOfBounds ∧
    joinExecute ["a"] [[Value.integer 1]] ["b"] [[Value.integer 2]]
      (some (JoinExpr.equalOp (JoinExpr.field "a") (JoinExpr.field "b"))) true =
      Except.ok (["a", "b"], [[Value.integer 1, Value.null]]) := by
  exact ⟨rfl, rfl⟩

theorem decBytes_encBytes : ∀ (b : Bytes) (r : List Nat),
    decBytes (encBytes b ++ r) = Except.ok (b, r)
  | [], r => by simp [encBytes, decBytes]
  | x :: rest, r => by
      by_cases hx : x = 0
      · subst hx
        simp [encBytes, decBytes, decBytes_encBytes rest r, Except.map]
      · obtain ⟨y, rfl⟩ : ∃ y, x = y + 1 := ⟨x - 1, by omega⟩
        simp [encBytes, decBytes, decBytes_encBytes rest r, Except.map]

theorem decU64_encU64 (n : Nat) (hn : n ≤ u64Max) (r : List Nat) :
    decU64 (encU64 n ++ r) = Except.ok (n, r) := by
  have hn' : n < 18446744073709551616 := by
    unfold u64Max at hn
    omega
  simp [encU64, decU64]
  omega

/-- C9 (spec-modelled codec: `src/storage/keycode.rs` is not in the source
tree).  For every `MvccKey` in the Rust domain (`u64` version, `u8`
bytes), decoding its encoding returns the key. -/
theorem keycode_roundtrip (k : MvccKey) (hk : wfKey k) :
    MvccKey.decode (MvccKey.encode k) = Except.ok k := by
  cases k with
  | nextVersion => rfl
  | txnActive v =>
      have h := decU64_encU64 v hk []
      rw [List.append_nil] at h
      simp [MvccKey.encode, MvccKey.decode, serialize_key, deserialize_key, h,
        except_bind_ok, except_pure_eq]
  | txnWrite v raw =>
      obtain ⟨hv, _⟩ := hk
      have h1 := decU64_encU64 v hv (encBytes raw)
      have h2 := decBytes_encBytes raw []
      rw [List.append_nil] at h2
      simp [MvccKey.encode, MvccKey.decode, serialize_key, deserialize_key, h1, h2,
        except_bind_ok, except_pure_eq]
  | version raw v =>
      obtain ⟨hv, _⟩ := hk
      have h1 := decBytes_encBytes raw (encU64 v)
      have h2 := decU64_encU64 v hv []
      rw [List.append_nil] at h2
      simp [MvccKey.encode, MvccKey.decode, serialize_key, deserialize_key, h1, h2,
        except_bind_ok, except_pure_eq]

/-- Instantiation of `keycode_roundtrip` on a `Version` key whose raw
bytes exercise both the escape (0x00) and the highest byte (0xFF). -/
theorem keycode_roundtrip_witness :
    wfKey (MvccKey.version [0, 255, 3] 5) ∧
    MvccKey.decode (MvccKey.encode (MvccKey.version [0, 255, 3] 5)) =
      Except.ok (MvccKey.version [0, 255, 3] 5) := by
  have hk : wfKey (MvccKey.version [0, 255, 3] 5) := by
    unfold wfKey
    decide
  exact ⟨hk, keycode_roundtrip _ hk⟩

end RusticDB
